import Mathlib

/-!
Verification development for the `dhruva_shell` repository (`src/main.c`).

The shell is embedded shallowly:
  * the character stream read by `getchar()` becomes a `List Char`
    (end of the list models end-of-stream / `EOF`);
  * heap buffers become `List (Option _)` values, a `none` cell standing
    for an allocated but not yet initialised slot; a store through a raw
    pointer becomes the bounds-checked `store`, and an out-of-bounds
    store surfaces as the dedicated result `CResult.oob`;
  * `malloc` / `realloc` success is an oracle `allocOk : Nat → Bool`
    indexed by allocation order inside one call; a failed allocation
    makes the function return `CResult.fatal msg code`, standing for
    `fprintf(stderr, msg); exit(code)`;
  * every `realloc` performed by the two growable buffers is logged as a
    `GrowEvent` `(positionAtGrowth, oldCapacity, newCapacity)` so that
    the growth policy can be stated as a theorem;
  * `fork` / `waitpid` results are oracles (`forkOk : Bool`, a list of
    `WStatus` values reported by successive `waitpid` calls).

The dispatcher `dsh_execute` and the built-in handlers are not present in
the repository sources; they are modelled from the specification (see the
doc comments marked `Modelled from the spec:`).
-/

namespace Dsh

/-- `#define DSH_RL_BUFSIZE 1024` from `src/main.c`. -/
def DSH_RL_BUFSIZE : Nat := 1024

/-- `#define DSH_TOK_BUFSIZE 64` from `src/main.c`. -/
def DSH_TOK_BUFSIZE : Nat := 64

/-- `#define DSH_TOK_DELIM " \t\r\n\a"` from `src/main.c` (the last
character is the bell, `\a` = code 7). -/
def DSH_TOK_DELIM : List Char := [' ', '\t', '\r', '\n', Char.ofNat 7]

/-- The C string terminator written by `dsh_read_line`. -/
def nulChar : Char := Char.ofNat 0

/-- `EXIT_FAILURE` from `stdlib.h`. -/
def EXIT_FAILURE : Nat := 1

/-- One logged reallocation: (write position at the moment of growth,
old capacity, new capacity). -/
abbrev GrowEvent := Nat × Nat × Nat

/-- Result of running one of the buffer-building functions:
either a normal return, or `fprintf(stderr, stderrMsg); exit(exitCode)`,
or an out-of-bounds store (undefined behaviour in the C source, never
reachable — see the safety claim). -/
inductive CResult (α : Type) where
  | ok (value : α)
  | fatal (stderrMsg : String) (exitCode : Nat)
  | oob
deriving DecidableEq

/-- Bounds-checked store `buf[i] = v`; `none` models an out-of-bounds
write. -/
def store {α : Type} (buf : List α) (i : Nat) (v : α) : Option (List α) :=
  if i < buf.length then some (buf.set i v) else none

/-- The `while (1)` loop of `dsh_read_line` (`src/main.c`): read one
character per iteration; on `EOF` (end of the input list) or a newline,
store the terminator and return the buffer; otherwise store the
character, advance `position`, and grow the buffer by `DSH_RL_BUFSIZE`
when `position >= bufsize`. -/
def rlLoop (allocOk : Nat → Bool) (input : List Char)
    (buffer : List (Option Char)) (bufsize position acount : Nat)
    (log : List GrowEvent) : CResult (List (Option Char) × Nat × List GrowEvent) :=
  match input with
  | [] =>
    match store buffer position (some nulChar) with
    | none => .oob
    | some buf => .ok (buf, position, log)
  | c :: rest =>
    if c = '\n' then
      match store buffer position (some nulChar) with
      | none => .oob
      | some buf => .ok (buf, position, log)
    else
      match store buffer position (some c) with
      | none => .oob
      | some buf =>
        if position + 1 ≥ bufsize then
          if allocOk acount then
            rlLoop allocOk rest (buf ++ List.replicate DSH_RL_BUFSIZE none)
              (bufsize + DSH_RL_BUFSIZE) (position + 1) (acount + 1)
              (log ++ [(position + 1, bufsize, bufsize + DSH_RL_BUFSIZE)])
          else .fatal "dsh: allocation error" EXIT_FAILURE
        else rlLoop allocOk rest buf bufsize (position + 1) acount log

/-- `dsh_read_line` (`src/main.c`): allocate the initial
`DSH_RL_BUFSIZE` buffer (allocation index 0), then run the read loop.
Returns the buffer, the index of the terminator, and the growth log. -/
def dsh_read_line (allocOk : Nat → Bool) (input : List Char) :
    CResult (List (Option Char) × Nat × List GrowEvent) :=
  if allocOk 0 then
    rlLoop allocOk input (List.replicate DSH_RL_BUFSIZE none) DSH_RL_BUFSIZE 0 1 []
  else .fatal "dsh: allocation error" EXIT_FAILURE

/-- Test for membership in `DSH_TOK_DELIM`. -/
def isDelim (c : Char) : Bool := DSH_TOK_DELIM.contains c

/-- The sequence of tokens produced by the successive `strtok(line,
DSH_TOK_DELIM)` / `strtok(NULL, DSH_TOK_DELIM)` calls in
`dsh_split_line`: `strtok` skips delimiter characters, then returns the
maximal delimiter-free run that follows, or `NULL` at the end of the
string. -/
def strtokAll (l : List Char) : List (List Char) :=
  match l with
  | [] => []
  | c :: rest =>
    if isDelim c then strtokAll rest
    else (c :: rest.takeWhile (fun d => !isDelim d)) ::
         strtokAll (rest.dropWhile (fun d => !isDelim d))
termination_by l.length
decreasing_by
  · simp only [List.length_cons]
    omega
  · simp only [List.length_cons]
    have := (List.dropWhile_sublist (l := rest) (p := fun d => !isDelim d)).length_le
    omega

/-- The `while (token != NULL)` loop of `dsh_split_line`
(`src/main.c`): store each token pointer, advance `position`, grow the
array by `DSH_TOK_BUFSIZE` when `position >= bufsize`; after the loop,
store the `NULL` end marker (`some none` at the cell level). -/
def slLoop (allocOk : Nat → Bool) (toks : List (List Char))
    (tokens : List (Option (Option (List Char)))) (bufsize position acount : Nat)
    (log : List GrowEvent) :
    CResult (List (Option (Option (List Char))) × Nat × List GrowEvent) :=
  match toks with
  | [] =>
    match store tokens position (some none) with
    | none => .oob
    | some arr => .ok (arr, position, log)
  | t :: rest =>
    match store tokens position (some (some t)) with
    | none => .oob
    | some arr =>
      if position + 1 ≥ bufsize then
        if allocOk acount then
          slLoop allocOk rest (arr ++ List.replicate DSH_TOK_BUFSIZE none)
            (bufsize + DSH_TOK_BUFSIZE) (position + 1) (acount + 1)
            (log ++ [(position + 1, bufsize, bufsize + DSH_TOK_BUFSIZE)])
        else .fatal "dsh: allocation error" EXIT_FAILURE
      else slLoop allocOk rest arr bufsize (position + 1) acount log

/-- `dsh_split_line` (`src/main.c`): allocate the initial
`DSH_TOK_BUFSIZE` token array (allocation index 0), then run the token
loop over the `strtok` results. Returns the token array, the index of
the `NULL` end marker, and the growth log. -/
def dsh_split_line (allocOk : Nat → Bool) (line : List Char) :
    CResult (List (Option (Option (List Char))) × Nat × List GrowEvent) :=
  if allocOk 0 then
    slLoop allocOk (strtokAll line) (List.replicate DSH_TOK_BUFSIZE none)
      DSH_TOK_BUFSIZE 0 1 []
  else .fatal "dsh: allocation error" EXIT_FAILURE

/-- A status value reported by `waitpid(pid, &status, WUNTRACED)`:
the child exited normally, was terminated by a signal, or is merely
stopped (reported because of `WUNTRACED`). -/
inductive WStatus where
  | exited (code : Nat)
  | signaled (sig : Nat)
  | stopped (sig : Nat)
deriving DecidableEq

/-- `WIFEXITED(status) || WIFSIGNALED(status)`: the child reached a
terminal state. -/
def WStatus.terminal : WStatus → Bool
  | .exited _ => true
  | .signaled _ => true
  | .stopped _ => false

/-- The `do { wpid = waitpid(pid, &status, WUNTRACED); } while
(!WIFEXITED(status) && !WIFSIGNALED(status));` loop of `dsh_launch`
(`src/main.c`), over the stream of statuses successive `waitpid` calls
report. `none` means the stream ended without a terminal status: the
parent is still blocked in `waitpid` and control never returns. -/
def waitLoop : List WStatus → Option WStatus
  | [] => none
  | s :: rest => if !s.terminal then waitLoop rest else some s

/-- What the child process does after `fork()` in `dsh_launch`
(`src/main.c`): `execvp(args[0], args)` either replaces the image, or
fails, in which case the child prints `perror("dsh")` and runs
`exit(EXIT_FAILURE)` — it never returns to shell logic. -/
inductive ChildResult where
  | imageReplaced (prog : List Char) (argv : List (List Char))
  | execFailedExit (diagnostic : String) (exitCode : Nat)
deriving DecidableEq

/-- The `pid == 0` branch of `dsh_launch` (`src/main.c`), with an
oracle for whether `execvp` succeeds. -/
def dsh_child (execOk : Bool) (args : List (List Char)) : ChildResult :=
  if execOk then .imageReplaced (args.headD []) args
  else .execFailedExit "dsh" EXIT_FAILURE

/-- The parent-side outcome of one `dsh_launch` call. -/
inductive LaunchOutcome where
  | forkFailed (diagnostic : String)
  | ran (finalStatus : WStatus)
deriving DecidableEq

/-- The parent-side control flow of `dsh_launch` (`src/main.c`):
`fork()`; on failure (`pid < 0`) print `perror("dsh")` and fall
through; otherwise wait for the child until a terminal status; then
`return 1`. `forkOk` is the oracle for `fork()` success and `statuses`
is the stream of statuses `waitpid` reports. `none` models the parent
still blocked in the wait loop. -/
def dsh_launch (forkOk : Bool) (statuses : List WStatus)
    (args : List (List Char)) : Option (Nat × LaunchOutcome) :=
  if forkOk then
    match waitLoop statuses with
    | some s => some (1, .ran s)
    | none => none
  else some (1, .forkFailed "dsh")

/-- Shell-side mutable state: the only state a built-in may change is
the working directory (via `cd`). -/
structure ShellState where
  cwd : List Char
deriving DecidableEq

/-- Modelled from the spec: the built-in `cd` handler (its source file
is not under `src/`). With no argument it emits a usage diagnostic and
changes nothing; with a directory argument it changes the working
directory when the directory is accessible (oracle `dirExists`),
otherwise it emits an error diagnostic and changes nothing; it always
signals continue. -/
def dsh_cd (dirExists : List Char → Bool) (st : ShellState)
    (args : List (List Char)) : ShellState × Nat :=
  match args with
  | [] => (st, 1)
  | d :: _ => if dirExists d then ({ st with cwd := d }, 1) else (st, 1)

/-- Modelled from the spec: the built-in `help` handler (its source
file is not under `src/`): prints a static banner, changes no state,
signals continue. -/
def dsh_help (st : ShellState) : ShellState × Nat := (st, 1)

/-- Modelled from the spec: the built-in `exit` handler (its source
file is not under `src/`): no side effect, signals stop. -/
def dsh_exit (st : ShellState) : ShellState × Nat := (st, 0)

/-- Modelled from the spec: the Command Dispatcher `dsh_execute` (its
source file is not under `src/`). With zero real tokens it returns
continue immediately; otherwise token 0 is compared against the
built-in table `cd`, `help`, `exit` by exact case-sensitive string
equality in that fixed order, first match winning; an unmatched token 0
is delegated to `dsh_launch`, whose signal is returned. `none` models a
dispatch that never returns (the launcher blocked forever). -/
def dsh_execute (dirExists : List Char → Bool) (forkOk : Bool)
    (statuses : List WStatus) (st : ShellState) (args : List (List Char)) :
    Option (ShellState × Nat) :=
  match args with
  | [] => some (st, 1)
  | cmd :: rest =>
    if cmd = String.toList "cd" then some (dsh_cd dirExists st rest)
    else if cmd = String.toList "help" then some (dsh_help st)
    else if cmd = String.toList "exit" then some (dsh_exit st)
    else (dsh_launch forkOk statuses (cmd :: rest)).map fun r => (st, r.1)

/-- Read the token array the way `dsh_execute` and `execvp` consume it:
pointers until the `NULL` end marker. An uninitialised cell stops the
walk as well (never reached on arrays `dsh_split_line` built). -/
def argsOf : List (Option (Option (List Char))) → List (List Char)
  | [] => []
  | none :: _ => []
  | some none :: _ => []
  | some (some t) :: rest => t :: argsOf rest

/-- Read the line buffer the way C string consumers do: characters up
to the first `nulChar` terminator (an uninitialised cell also stops the
walk; never reached on buffers `dsh_read_line` built). -/
def cString : List (Option Char) → List Char
  | [] => []
  | none :: _ => []
  | some c :: rest => if c = nulChar then [] else c :: cString rest

/-- The `while (status)` condition of the `do … while` in `dsh_loop`
(`src/main.c`): the loop re-prompts exactly when the status is
nonzero. -/
def dsh_loop_continues (status : Nat) : Bool := status != 0

/-- Sequencing of `CResult` computations: a fatal exit or an
out-of-bounds store in an earlier step aborts the iteration. -/
def seqResult {α β : Type} (r : CResult α) (f : α → CResult β) : CResult β :=
  match r with
  | .ok v => f v
  | .fatal m c => .fatal m c
  | .oob => .oob

/-- One iteration of the `do … while` body of `dsh_loop`
(`src/main.c`): print the prompt, read a line, split it, execute, free
both buffers; the iteration yields the status `dsh_execute` returned
(or the fatal/out-of-bounds outcome of the buffer builders, or a
dispatch that never returns). -/
def dsh_loop_iter (dirExists : List Char → Bool) (forkOk : Bool)
    (statuses : List WStatus) (allocOkRead allocOkSplit : Nat → Bool)
    (st : ShellState) (input : List Char) :
    CResult (Option (ShellState × Nat)) :=
  seqResult (dsh_read_line allocOkRead input) fun v =>
    seqResult (dsh_split_line allocOkSplit (cString v.1)) fun w =>
      .ok (dsh_execute dirExists forkOk statuses st (argsOf w.1))

/-! ### Proof infrastructure: the common grow-and-store loop shape -/

/-- Both buffer-building loops share one shape: walk a list of items,
store each at `position`, advance, grow by `inc` when `position`
reaches `bufsize`, and finally store a terminator. `rlLoop` and
`slLoop` are proved equal to instances of this loop below. -/
def growLoop {β : Type} (inc : Nat) (term : β) (allocOk : Nat → Bool)
    (items : List β) (buf : List (Option β)) (bufsize position acount : Nat)
    (log : List GrowEvent) : CResult (List (Option β) × Nat × List GrowEvent) :=
  match items with
  | [] =>
    match store buf position (some term) with
    | none => .oob
    | some b => .ok (b, position, log)
  | x :: rest =>
    match store buf position (some x) with
    | none => .oob
    | some b =>
      if position + 1 ≥ bufsize then
        if allocOk acount then
          growLoop inc term allocOk rest (b ++ List.replicate inc none)
            (bufsize + inc) (position + 1) (acount + 1)
            (log ++ [(position + 1, bufsize, bufsize + inc)])
        else .fatal "dsh: allocation error" EXIT_FAILURE
      else growLoop inc term allocOk rest b bufsize (position + 1) acount log

/-- The predicate the read loop keeps a character for:
everything except the newline terminator. -/
def keepChar (c : Char) : Bool := c != '\n'

lemma rlLoop_eq_growLoop (allocOk : Nat → Bool) (input : List Char) :
    ∀ (buffer : List (Option Char)) (bufsize position acount : Nat)
      (log : List GrowEvent),
    rlLoop allocOk input buffer bufsize position acount log =
      growLoop DSH_RL_BUFSIZE nulChar allocOk (input.takeWhile keepChar)
        buffer bufsize position acount log := by
  induction input with
  | nil =>
    intro buffer bufsize position acount log
    simp only [List.takeWhile_nil, rlLoop, growLoop]
    cases store buffer position (some nulChar) <;> rfl
  | cons c rest ih =>
    intro buffer bufsize position acount log
    by_cases hc : c = '\n'
    · subst hc
      simp only [rlLoop, if_pos rfl, List.takeWhile_cons, keepChar]
      norm_num [growLoop]
      cases store buffer position (some nulChar) <;> rfl
    · have hk : keepChar c = true := by simp [keepChar, hc]
      simp only [rlLoop, if_neg hc, List.takeWhile_cons, hk, if_pos, growLoop]
      cases store buffer position (some c) with
      | none => rfl
      | some b =>
        simp only
        by_cases hge : position + 1 ≥ bufsize
        · rw [if_pos hge, if_pos hge]
          by_cases ha : allocOk acount = true
          · rw [if_pos ha, if_pos ha, ih]
          · rw [if_neg ha, if_neg ha]
        · rw [if_neg hge, if_neg hge, ih]

lemma slLoop_eq_growLoop (allocOk : Nat → Bool) (toks : List (List Char)) :
    ∀ (arr : List (Option (Option (List Char)))) (bufsize position acount : Nat)
      (log : List GrowEvent),
    slLoop allocOk toks arr bufsize position acount log =
      growLoop DSH_TOK_BUFSIZE none allocOk (toks.map some)
        arr bufsize position acount log := by
  induction toks with
  | nil =>
    intro arr bufsize position acount log
    simp only [List.map_nil, slLoop, growLoop]
    cases store arr position (some none) <;> rfl
  | cons t rest ih =>
    intro arr bufsize position acount log
    simp only [slLoop, List.map_cons, growLoop]
    cases store arr position (some (some t)) with
    | none => rfl
    | some b =>
      simp only
      by_cases hge : position + 1 ≥ bufsize
      · rw [if_pos hge, if_pos hge]
        by_cases ha : allocOk acount = true
        · rw [if_pos ha, if_pos ha, ih]
        · rw [if_neg ha, if_neg ha]
      · rw [if_neg hge, if_neg hge, ih]

/-- Number of reallocations a run of the grow loop performs when it
starts at write position `p` with capacity `L` and has `n` items left
to store (increment `inc`): one growth each time the advanced position
hits a capacity. -/
def growthsNeeded (inc p n L : Nat) : Nat :=
  if p + n < L then 0 else (p + n - L) / inc + 1

/-- The growth log a run starting at capacity `L` produces when it grows
`k` times by `inc`: the i-th reallocation fires exactly when the
position reaches the current capacity `L + inc * i`. -/
def grownEvents (L inc k : Nat) : List GrowEvent :=
  (List.range k).map fun i => (L + inc * i, L + inc * i, L + inc * i + inc)

lemma set_len_append {α : Type} (pre : List α) (r : α) (rs : List α) (v : α) :
    (pre ++ r :: rs).set pre.length v = pre ++ v :: rs := by
  induction pre with
  | nil => rfl
  | cons a l ih => simpa using ih

lemma store_append {α : Type} (pre : List α) (r : α) (rs : List α) (v : α) :
    store (pre ++ r :: rs) pre.length v = some (pre ++ v :: rs) := by
  unfold store
  rw [if_pos, set_len_append]
  simp

lemma grownEvents_zero (L inc : Nat) : grownEvents L inc 0 = [] := rfl

lemma grownEvents_succ (L inc k : Nat) :
    grownEvents L inc (k + 1) = (L, L, L + inc) :: grownEvents (L + inc) inc k := by
  unfold grownEvents
  rw [List.range_succ_eq_map, List.map_cons, List.map_map]
  refine congrArg₂ _ (by simp) ?_
  refine List.map_eq_map_iff.mpr ?_
  intro i _
  simp [Function.comp, Nat.mul_succ]
  omega

lemma growLoop_nil_eq {β : Type} (inc : Nat) (term : β) (allocOk : Nat → Bool)
    (buf b : List (Option β)) (bufsize position acount : Nat)
    (log : List GrowEvent) (hs : store buf position (some term) = some b) :
    growLoop inc term allocOk [] buf bufsize position acount log =
      .ok (b, position, log) := by
  simp only [growLoop]
  rw [hs]

lemma growLoop_cons_eq {β : Type} (inc : Nat) (term : β) (allocOk : Nat → Bool)
    (x : β) (xs : List β) (buf b : List (Option β))
    (bufsize position acount : Nat) (log : List GrowEvent)
    (hs : store buf position (some x) = some b) :
    growLoop inc term allocOk (x :: xs) buf bufsize position acount log =
      if position + 1 ≥ bufsize then
        if allocOk acount then
          growLoop inc term allocOk xs (b ++ List.replicate inc none)
            (bufsize + inc) (position + 1) (acount + 1)
            (log ++ [(position + 1, bufsize, bufsize + inc)])
        else .fatal "dsh: allocation error" EXIT_FAILURE
      else growLoop inc term allocOk xs b bufsize (position + 1) acount log := by
  simp only [growLoop]
  rw [hs]

lemma growthsNeeded_step (inc p n L : Nat) :
    growthsNeeded inc (p + 1) n L = growthsNeeded inc p (n + 1) L := by
  unfold growthsNeeded
  have h : p + 1 + n = p + (n + 1) := by omega
  rw [h]

lemma growthsNeeded_grow (inc : Nat) (hinc : 0 < inc) (p n : Nat) :
    growthsNeeded inc p (n + 1) (p + 1) =
      growthsNeeded inc (p + 1) n (p + 1 + inc) + 1 := by
  unfold growthsNeeded
  rw [if_neg (by omega)]
  have hpn : p + (n + 1) - (p + 1) = n := by omega
  by_cases h2 : p + 1 + n < p + 1 + inc
  · rw [if_pos h2, hpn, Nat.div_eq_of_lt (by omega)]
  · rw [if_neg h2, hpn, Nat.div_eq_sub_div hinc (by omega)]
    have h3 : p + 1 + n - (p + 1 + inc) = n - inc := by omega
    rw [h3]

/-- Full behaviour of the grow-and-store loop, for a buffer of shape
`pre.map some ++ rest` (all stored items, then not-yet-written cells):
when every allocation the run performs succeeds, it returns the stored
items followed by the terminator, the exact growth log, and the exact
final capacity; when one fails, it exits fatally with the allocation
diagnostic. -/
lemma growLoop_spec {β : Type} (inc : Nat) (hinc : 0 < inc) (term : β)
    (allocOk : Nat → Bool) :
    ∀ (items pre : List β) (rest : List (Option β)) (bufsize acount : Nat)
      (log : List GrowEvent), rest ≠ [] → bufsize = pre.length + rest.length →
    ((∀ i < growthsNeeded inc pre.length items.length bufsize,
        allocOk (acount + i) = true) →
      ∃ rest' : List (Option β),
        growLoop inc term allocOk items (pre.map some ++ rest)
            bufsize pre.length acount log =
          .ok ((pre ++ items).map some ++ some term :: rest',
               pre.length + items.length,
               log ++ grownEvents bufsize inc
                 (growthsNeeded inc pre.length items.length bufsize)) ∧
        pre.length + items.length + 1 + rest'.length =
          bufsize + inc * growthsNeeded inc pre.length items.length bufsize) ∧
    ((¬ ∀ i < growthsNeeded inc pre.length items.length bufsize,
        allocOk (acount + i) = true) →
      growLoop inc term allocOk items (pre.map some ++ rest)
          bufsize pre.length acount log =
        .fatal "dsh: allocation error" EXIT_FAILURE) := by
  intro items
  induction items with
  | nil =>
    intro pre rest bufsize acount log hrest hsize
    obtain ⟨r, rs, rfl⟩ : ∃ r rs, rest = r :: rs := by
      cases rest with
      | nil => exact absurd rfl hrest
      | cons r rs => exact ⟨r, rs, rfl⟩
    simp only [List.length_cons] at hsize
    have hk : growthsNeeded inc pre.length 0 bufsize = 0 := by
      unfold growthsNeeded
      rw [if_pos (by omega)]
    have hs : store (pre.map some ++ r :: rs) pre.length (some term)
        = some (pre.map some ++ some term :: rs) := by
      have h := store_append (pre.map some) r rs (some term)
      rwa [List.length_map] at h
    constructor
    · intro _
      refine ⟨rs, ?_, ?_⟩
      · rw [growLoop_nil_eq inc term allocOk _ _ bufsize _ acount log hs]
        simp only [List.length_nil, List.append_nil, Nat.add_zero, hk,
          grownEvents_zero]
      · simp only [List.length_nil, hk, Nat.mul_zero, Nat.add_zero]
        omega
    · intro h
      exfalso
      apply h
      intro i hi
      simp only [List.length_nil, hk] at hi
      exact absurd hi (Nat.not_lt_zero i)
  | cons x xs ih =>
    intro pre rest bufsize acount log hrest hsize
    obtain ⟨r, rs, rfl⟩ : ∃ r rs, rest = r :: rs := by
      cases rest with
      | nil => exact absurd rfl hrest
      | cons r rs => exact ⟨r, rs, rfl⟩
    simp only [List.length_cons] at hsize
    have hs : store (pre.map some ++ r :: rs) pre.length (some x)
        = some (pre.map some ++ some x :: rs) := by
      have h := store_append (pre.map some) r rs (some x)
      rwa [List.length_map] at h
    rw [growLoop_cons_eq inc term allocOk x xs _ _ bufsize _ acount log hs]
    simp only [List.length_cons]
    by_cases hrs : rs = []
    · -- the stored item filled the buffer: the loop reallocates next
      subst hrs
      have hbs : bufsize = pre.length + 1 := by
        simpa using hsize
      rw [if_pos (by omega)]
      have hk : growthsNeeded inc pre.length (xs.length + 1) bufsize =
          growthsNeeded inc (pre.length + 1) xs.length (bufsize + inc) + 1 := by
        subst hbs
        exact growthsNeeded_grow inc hinc pre.length xs.length
      by_cases ha : allocOk acount = true
      · rw [if_pos ha]
        simp only [List.append_assoc, List.cons_append, List.nil_append]
        have hne : (List.replicate inc (none : Option β)) ≠ [] :=
          List.length_pos.mp (by simpa using hinc)
        have hsz : bufsize + inc =
            (pre ++ [x]).length + (List.replicate inc (none : Option β)).length := by
          simp only [List.length_append, List.length_cons, List.length_nil,
            List.length_replicate]
          omega
        have hIH := ih (pre ++ [x]) (List.replicate inc none) (bufsize + inc)
          (acount + 1) (log ++ [(pre.length + 1, bufsize, bufsize + inc)]) hne hsz
        simp only [List.length_append, List.length_cons, List.length_nil,
          List.map_append, List.map_cons, List.map_nil, List.append_assoc,
          List.cons_append, List.nil_append, Nat.add_zero, Nat.zero_add] at hIH
        constructor
        · intro hall
          have hall' : ∀ i < growthsNeeded inc (pre.length + 1) xs.length (bufsize + inc),
              allocOk (acount + 1 + i) = true := by
            intro i hi
            have h := hall (i + 1) (by rw [hk]; omega)
            rwa [show acount + (i + 1) = acount + 1 + i by omega] at h
          obtain ⟨rest', heq, hlen⟩ := hIH.1 hall'
          refine ⟨rest', ?_, ?_⟩
          · rw [heq, hk, grownEvents_succ, hbs]
            simp only [CResult.ok.injEq, Prod.mk.injEq, List.map_append,
              List.map_cons, List.append_assoc, List.cons_append,
              List.nil_append, List.map_nil]
            refine ⟨trivial, by omega, trivial⟩
          · rw [hk, Nat.mul_succ]
            omega
        · intro hnot
          have hnot' : ¬ ∀ i < growthsNeeded inc (pre.length + 1) xs.length (bufsize + inc),
              allocOk (acount + 1 + i) = true := by
            intro hall'
            apply hnot
            intro i hi
            rw [hk] at hi
            match i with
            | 0 => simpa using ha
            | j + 1 =>
              have h := hall' j (by omega)
              rwa [show acount + 1 + j = acount + (j + 1) by omega] at h
          exact hIH.2 hnot'
      · rw [if_neg ha]
        constructor
        · intro hall
          exfalso
          have h := hall 0 (by rw [hk]; omega)
          simp only [Nat.add_zero] at h
          exact ha h
        · intro _
          rfl
    · -- still room after the stored item: no reallocation yet
      have hlen : 0 < rs.length := List.length_pos.mpr hrs
      rw [if_neg (by omega)]
      have hsz : bufsize = (pre ++ [x]).length + rs.length := by
        simp only [List.length_append, List.length_cons, List.length_nil]
        omega
      have hIH := ih (pre ++ [x]) rs bufsize acount log hrs hsz
      simp only [List.length_append, List.length_cons, List.length_nil,
        List.map_append, List.map_cons, List.map_nil, List.append_assoc,
        List.cons_append, List.nil_append, Nat.add_zero, Nat.zero_add] at hIH
      rw [growthsNeeded_step] at hIH
      constructor
      · intro hall
        obtain ⟨rest', heq, hlen'⟩ := hIH.1 hall
        refine ⟨rest', ?_, ?_⟩
        · rw [heq]
          simp only [CResult.ok.injEq, Prod.mk.injEq, List.map_append,
            List.map_cons, List.append_assoc, List.cons_append,
            List.nil_append, List.map_nil]
          refine ⟨trivial, by omega, trivial⟩
        · omega
      · intro hnot
        exact hIH.2 hnot

/-- Number of reallocations `dsh_read_line` performs on `input` (after
the initial allocation). -/
def rlGrowths (input : List Char) : Nat :=
  growthsNeeded DSH_RL_BUFSIZE 0 (input.takeWhile keepChar).length DSH_RL_BUFSIZE

/-- Number of reallocations `dsh_split_line` performs on `line` (after
the initial allocation). -/
def slGrowths (line : List Char) : Nat :=
  growthsNeeded DSH_TOK_BUFSIZE 0 (strtokAll line).length DSH_TOK_BUFSIZE

lemma dsh_read_line_spec (allocOk : Nat → Bool) (input : List Char)
    (h0 : allocOk 0 = true) :
    ((∀ i < rlGrowths input, allocOk (1 + i) = true) →
      ∃ rest' : List (Option Char),
        dsh_read_line allocOk input =
          .ok ((input.takeWhile keepChar).map some ++ some nulChar :: rest',
               (input.takeWhile keepChar).length,
               grownEvents DSH_RL_BUFSIZE DSH_RL_BUFSIZE (rlGrowths input)) ∧
        (input.takeWhile keepChar).length + 1 + rest'.length =
          DSH_RL_BUFSIZE + DSH_RL_BUFSIZE * rlGrowths input) ∧
    ((¬ ∀ i < rlGrowths input, allocOk (1 + i) = true) →
      dsh_read_line allocOk input = .fatal "dsh: allocation error" EXIT_FAILURE) := by
  unfold dsh_read_line
  rw [if_pos h0, rlLoop_eq_growLoop]
  have hinc : 0 < DSH_RL_BUFSIZE := by norm_num [DSH_RL_BUFSIZE]
  have hne : (List.replicate DSH_RL_BUFSIZE (none : Option Char)) ≠ [] :=
    List.length_pos.mp (by simpa using hinc)
  have h := growLoop_spec DSH_RL_BUFSIZE hinc nulChar allocOk
    (input.takeWhile keepChar) [] (List.replicate DSH_RL_BUFSIZE none)
    DSH_RL_BUFSIZE 1 [] hne (by simp)
  simp only [List.length_nil, List.map_nil, List.nil_append, Nat.zero_add] at h
  unfold rlGrowths
  exact h

lemma dsh_split_line_spec (allocOk : Nat → Bool) (line : List Char)
    (h0 : allocOk 0 = true) :
    ((∀ i < slGrowths line, allocOk (1 + i) = true) →
      ∃ rest' : List (Option (Option (List Char))),
        dsh_split_line allocOk line =
          .ok ((strtokAll line).map (fun t => some (some t)) ++ some none :: rest',
               (strtokAll line).length,
               grownEvents DSH_TOK_BUFSIZE DSH_TOK_BUFSIZE (slGrowths line)) ∧
        (strtokAll line).length + 1 + rest'.length =
          DSH_TOK_BUFSIZE + DSH_TOK_BUFSIZE * slGrowths line) ∧
    ((¬ ∀ i < slGrowths line, allocOk (1 + i) = true) →
      dsh_split_line allocOk line = .fatal "dsh: allocation error" EXIT_FAILURE) := by
  unfold dsh_split_line
  rw [if_pos h0, slLoop_eq_growLoop]
  have hinc : 0 < DSH_TOK_BUFSIZE := by norm_num [DSH_TOK_BUFSIZE]
  have hne : (List.replicate DSH_TOK_BUFSIZE (none : Option (Option (List Char)))) ≠ [] :=
    List.length_pos.mp (by simpa using hinc)
  have h := growLoop_spec DSH_TOK_BUFSIZE hinc (none : Option (List Char)) allocOk
    ((strtokAll line).map some) [] (List.replicate DSH_TOK_BUFSIZE none)
    DSH_TOK_BUFSIZE 1 [] hne (by simp)
  simp only [List.length_nil, List.map_nil, List.nil_append, Nat.zero_add,
    List.length_map, List.map_map, Function.comp_def] at h
  unfold slGrowths
  exact h

/-! ### The tokenizer against the spec wording -/

/-- Follows the spec words (§4.2, Testable Properties): the token
sequence is exactly the maximal runs of non-delimiter characters, in
left-to-right order — split the line at every delimiter character and
keep the non-empty chunks. Stated independently of the `strtok`-based
`strtokAll` so that the two can be compared. -/
def specTokens (l : List Char) : List (List Char) :=
  (l.splitOnP isDelim).filter (fun t => !t.isEmpty)

lemma dropWhile_head_false {α : Type} (p : α → Bool) :
    ∀ (l : List α) (x : α) (xs : List α), l.dropWhile p = x :: xs → p x = false := by
  intro l
  induction l with
  | nil => intro x xs h; simp [List.dropWhile] at h
  | cons a t ih =>
    intro x xs h
    rw [List.dropWhile_cons] at h
    by_cases hp : p a = true
    · rw [if_pos hp] at h
      exact ih x xs h
    · rw [if_neg hp] at h
      cases h
      simpa using hp

lemma strtokAll_eq_specTokens_aux :
    ∀ (n : Nat) (l : List Char), l.length ≤ n → strtokAll l = specTokens l := by
  intro n
  induction n with
  | zero =>
    intro l hl
    have hnil : l = [] := List.length_eq_zero.mp (Nat.le_zero.mp hl)
    subst hnil
    simp [strtokAll, specTokens, List.splitOnP_nil]
  | succ m ih =>
    intro l hl
    match l with
    | [] => simp [strtokAll, specTokens, List.splitOnP_nil]
    | c :: rest =>
      simp only [List.length_cons] at hl
      by_cases hc : isDelim c = true
      · simp only [strtokAll]
        rw [if_pos hc, ih rest (by omega)]
        unfold specTokens
        rw [List.splitOnP_cons, if_pos hc]
        simp [List.filter_cons]
      · have hmemT : ∀ x ∈ c :: rest.takeWhile (fun d => !isDelim d),
            ¬ isDelim x = true := by
          intro x hx
          rcases List.mem_cons.mp hx with rfl | hx
          · simpa using hc
          · have hx' := List.mem_takeWhile_imp hx
            simpa using hx'
        simp only [strtokAll]
        rw [if_neg hc]
        cases hR : rest.dropWhile (fun d => !isDelim d) with
        | nil =>
          have hrest : rest.takeWhile (fun d => !isDelim d) = rest := by
            have h := List.takeWhile_append_dropWhile (fun d => !isDelim d) rest
            rw [hR, List.append_nil] at h
            exact h
          have hmemT' : ∀ x ∈ c :: rest, ¬ isDelim x = true := by
            rw [← hrest]
            exact hmemT
          have hsingle : (c :: rest).splitOnP isDelim = [c :: rest] :=
            List.splitOnP_eq_single isDelim (c :: rest) hmemT'
          unfold specTokens
          rw [hsingle]
          simp [strtokAll, List.filter_cons, hrest]
        | cons d R' =>
          have hd : isDelim d = true := by
            have h := dropWhile_head_false (fun d => !isDelim d) rest d R' hR
            simpa using h
          have hsplit : c :: rest =
              (c :: rest.takeWhile (fun d => !isDelim d)) ++ d :: R' := by
            rw [List.cons_append]
            have h := List.takeWhile_append_dropWhile (fun d => !isDelim d) rest
            rw [hR] at h
            rw [h]
          have hfirst : (c :: rest).splitOnP isDelim =
              (c :: rest.takeWhile (fun d => !isDelim d)) :: R'.splitOnP isDelim := by
            rw [hsplit]
            exact List.splitOnP_first _ _ hmemT d hd R'
          have hRlen : R'.length ≤ m := by
            have h := (List.dropWhile_sublist (l := rest)
              (p := fun d => !isDelim d)).length_le
            rw [hR] at h
            simp only [List.length_cons] at h
            omega
          have hRstep : strtokAll (d :: R') = strtokAll R' := by
            simp only [strtokAll]
            rw [if_pos hd]
          rw [hRstep, ih R' hRlen]
          unfold specTokens
          rw [hfirst]
          simp [List.filter_cons]

/-- The `strtok`-based tokenizer computes exactly the spec-side token
sequence: the maximal non-delimiter runs, in order, no empties. -/
lemma strtokAll_eq_specTokens (l : List Char) : strtokAll l = specTokens l :=
  strtokAll_eq_specTokens_aux l.length l (Nat.le_refl _)

lemma strtokAll_sound_aux :
    ∀ (n : Nat) (l : List Char), l.length ≤ n →
    ∀ t ∈ strtokAll l, t ≠ [] ∧ ∀ c ∈ t, isDelim c = false := by
  intro n
  induction n with
  | zero =>
    intro l hl
    have hnil : l = [] := List.length_eq_zero.mp (Nat.le_zero.mp hl)
    subst hnil
    simp [strtokAll]
  | succ m ih =>
    intro l hl
    match l with
    | [] => simp [strtokAll]
    | c :: rest =>
      simp only [List.length_cons] at hl
      by_cases hc : isDelim c = true
      · simp only [strtokAll]
        rw [if_pos hc]
        exact ih rest (by omega)
      · simp only [strtokAll]
        rw [if_neg hc]
        intro t ht
        rcases List.mem_cons.mp ht with rfl | ht
        · refine ⟨by simp, ?_⟩
          intro x hx
          rcases List.mem_cons.mp hx with rfl | hx
          · simpa using hc
          · have hx' := List.mem_takeWhile_imp hx
            simpa using hx'
        · have hRlen : (rest.dropWhile (fun d => !isDelim d)).length ≤ m := by
            have h := (List.dropWhile_sublist (l := rest)
              (p := fun d => !isDelim d)).length_le
            omega
          exact ih _ hRlen t ht

/-- Every token `dsh_split_line` produces is non-empty and free of
delimiter characters. -/
lemma strtokAll_sound (l : List Char) :
    ∀ t ∈ strtokAll l, t ≠ [] ∧ ∀ c ∈ t, isDelim c = false :=
  strtokAll_sound_aux l.length l (Nat.le_refl _)

lemma strtokAll_all_delim :
    ∀ (l : List Char), (∀ c ∈ l, isDelim c = true) → strtokAll l = [] := by
  intro l
  induction l with
  | nil => intro _; simp [strtokAll]
  | cons c rest ih =>
    intro h
    simp only [strtokAll]
    rw [if_pos (h c (List.mem_cons_self c rest))]
    exact ih fun x hx => h x (List.mem_cons_of_mem c hx)

/-! ### Joining tokens with single spaces (spec §8, idempotent normalization) -/

/-- Join a token sequence with single spaces (the re-joined line of the
spec property). -/
def joinSpace : List (List Char) → List Char
  | [] => []
  | [t] => t
  | t :: ts => t ++ ' ' :: joinSpace ts

lemma joinSpace_single (t : List Char) : joinSpace [t] = t := rfl

lemma joinSpace_cons_cons (t u : List Char) (ts : List (List Char)) :
    joinSpace (t :: u :: ts) = t ++ ' ' :: joinSpace (u :: ts) := rfl

/-- The joined line has no leading delimiter. -/
def noLeadDelim : List Char → Bool
  | [] => true
  | c :: _ => !isDelim c

/-- The joined line has no trailing delimiter. -/
def noTrailDelim : List Char → Bool
  | [] => true
  | [c] => !isDelim c
  | _ :: rest => noTrailDelim rest

/-- The joined line has no two adjacent delimiter characters. -/
def noDoubleDelim : List Char → Bool
  | c1 :: c2 :: rest => !(isDelim c1 && isDelim c2) && noDoubleDelim (c2 :: rest)
  | _ => true

lemma noTrailDelim_cons_cons (x y : Char) (l : List Char) :
    noTrailDelim (x :: y :: l) = noTrailDelim (y :: l) := rfl

lemma noDoubleDelim_cons_cons (x y : Char) (l : List Char) :
    noDoubleDelim (x :: y :: l) =
      (!(isDelim x && isDelim y) && noDoubleDelim (y :: l)) := rfl

lemma strtokAll_single (t : List Char) (hne : t ≠ [])
    (hfree : ∀ c ∈ t, isDelim c = false) : strtokAll t = [t] := by
  obtain ⟨c, t', rfl⟩ := List.exists_cons_of_ne_nil hne
  simp only [strtokAll]
  rw [if_neg (by simp [hfree c (List.mem_cons_self _ _)])]
  have h1 : t'.takeWhile (fun d => !isDelim d) = t' :=
    List.takeWhile_eq_self_iff.mpr
      (by intro x hx; simp [hfree x (List.mem_cons_of_mem _ hx)])
  have h2 : t'.dropWhile (fun d => !isDelim d) = [] :=
    List.dropWhile_eq_nil_iff.mpr
      (by intro x hx; simp [hfree x (List.mem_cons_of_mem _ hx)])
  rw [h1, h2]
  simp [strtokAll]

lemma strtokAll_headToken (t : List Char) (hne : t ≠ [])
    (hfree : ∀ c ∈ t, isDelim c = false) (d : Char) (hd : isDelim d = true)
    (rest : List Char) : strtokAll (t ++ d :: rest) = t :: strtokAll rest := by
  obtain ⟨c, t', rfl⟩ := List.exists_cons_of_ne_nil hne
  rw [List.cons_append]
  simp only [strtokAll]
  rw [if_neg (by simp [hfree c (List.mem_cons_self _ _)])]
  have hmem : ∀ x ∈ t', (fun d => !isDelim d) x = true := fun x hx => by
    simp [hfree x (List.mem_cons_of_mem _ hx)]
  rw [List.takeWhile_append_of_pos hmem, List.dropWhile_append_of_pos hmem]
  have h1 : (d :: rest).takeWhile (fun d => !isDelim d) = [] := by
    rw [List.takeWhile_cons]
    simp [hd]
  have h2 : (d :: rest).dropWhile (fun d => !isDelim d) = d :: rest := by
    rw [List.dropWhile_cons]
    simp [hd]
  rw [h1, h2, List.append_nil]
  have h3 : strtokAll (d :: rest) = strtokAll rest := by
    simp only [strtokAll]
    rw [if_pos hd]
  rw [h3]

lemma joinSpace_ne_nil (ts : List (List Char)) (hts : ts ≠ [])
    (h : ∀ t ∈ ts, t ≠ []) : joinSpace ts ≠ [] := by
  cases ts with
  | nil => exact absurd rfl hts
  | cons t ts' =>
    cases ts' with
    | nil => exact h t (List.mem_cons_self _ _)
    | cons t2 ts'' =>
      rw [joinSpace_cons_cons]
      intro hcontra
      rcases List.append_eq_nil.mp hcontra with ⟨_, h2⟩
      cases h2

/-- Re-splitting the space-joined token sequence gives it back
(provided the tokens are non-empty and delimiter-free, which
`strtokAll` guarantees). -/
lemma strtokAll_joinSpace (ts : List (List Char))
    (h : ∀ t ∈ ts, t ≠ [] ∧ ∀ c ∈ t, isDelim c = false) :
    strtokAll (joinSpace ts) = ts := by
  induction ts with
  | nil => simp [joinSpace, strtokAll]
  | cons t ts' ih =>
    obtain ⟨hne, hfree⟩ := h t (List.mem_cons_self _ _)
    cases ts' with
    | nil =>
      rw [joinSpace_single]
      exact strtokAll_single t hne hfree
    | cons t2 ts'' =>
      rw [joinSpace_cons_cons,
        strtokAll_headToken t hne hfree ' ' (by decide) _,
        ih fun x hx => h x (List.mem_cons_of_mem _ hx)]

lemma noTrailDelim_append (a : List Char) :
    ∀ b : List Char, b ≠ [] → noTrailDelim (a ++ b) = noTrailDelim b := by
  induction a with
  | nil => intro b _; rfl
  | cons x a ih =>
    intro b hb
    have hab : a ++ b ≠ [] := by
      intro hcontra
      exact hb (List.append_eq_nil.mp hcontra).2
    obtain ⟨y, ys, hcons⟩ := List.exists_cons_of_ne_nil hab
    rw [List.cons_append, hcons, noTrailDelim_cons_cons, ← hcons]
    exact ih b hb

lemma noTrailDelim_delimFree (t : List Char)
    (h : ∀ c ∈ t, isDelim c = false) : noTrailDelim t = true := by
  induction t with
  | nil => rfl
  | cons c rest ih =>
    cases rest with
    | nil => simp [noTrailDelim, h c (List.mem_cons_self _ _)]
    | cons y ys =>
      rw [noTrailDelim_cons_cons]
      exact ih fun x hx => h x (List.mem_cons_of_mem _ hx)

lemma noDoubleDelim_append_delimFree (t : List Char)
    (h : ∀ c ∈ t, isDelim c = false) :
    ∀ j : List Char, noDoubleDelim j = true → noDoubleDelim (t ++ j) = true := by
  induction t with
  | nil => intro j hj; simpa using hj
  | cons c rest ih =>
    intro j hj
    have hc : isDelim c = false := h c (List.mem_cons_self _ _)
    have hrest := ih (fun x hx => h x (List.mem_cons_of_mem _ hx)) j hj
    rw [List.cons_append]
    cases hr : rest ++ j with
    | nil => rfl
    | cons y ys =>
      rw [noDoubleDelim_cons_cons, hc]
      simp only [Bool.false_and, Bool.not_false, Bool.true_and]
      rw [← hr]
      exact hrest

lemma joinSpace_noLead (ts : List (List Char))
    (h : ∀ t ∈ ts, t ≠ [] ∧ ∀ c ∈ t, isDelim c = false) :
    noLeadDelim (joinSpace ts) = true := by
  cases ts with
  | nil => rfl
  | cons t ts' =>
    obtain ⟨hne, hfree⟩ := h t (List.mem_cons_self _ _)
    obtain ⟨c, cs, rfl⟩ := List.exists_cons_of_ne_nil hne
    cases ts' with
    | nil =>
      rw [joinSpace_single]
      simp [noLeadDelim, hfree c (List.mem_cons_self _ _)]
    | cons t2 ts'' =>
      rw [joinSpace_cons_cons, List.cons_append]
      simp [noLeadDelim, hfree c (List.mem_cons_self _ _)]

lemma joinSpace_noTrail (ts : List (List Char))
    (h : ∀ t ∈ ts, t ≠ [] ∧ ∀ c ∈ t, isDelim c = false) :
    noTrailDelim (joinSpace ts) = true := by
  induction ts with
  | nil => rfl
  | cons t ts' ih =>
    obtain ⟨hne, hfree⟩ := h t (List.mem_cons_self _ _)
    cases ts' with
    | nil =>
      rw [joinSpace_single]
      exact noTrailDelim_delimFree t hfree
    | cons t2 ts'' =>
      have hsub : ∀ x ∈ t2 :: ts'', x ≠ [] ∧ ∀ c ∈ x, isDelim c = false :=
        fun x hx => h x (List.mem_cons_of_mem _ hx)
      have hJ : joinSpace (t2 :: ts'') ≠ [] :=
        joinSpace_ne_nil _ (by simp) fun x hx => (hsub x hx).1
      rw [joinSpace_cons_cons, noTrailDelim_append t _ (by simp)]
      obtain ⟨y, ys, hcons⟩ := List.exists_cons_of_ne_nil hJ
      rw [hcons, noTrailDelim_cons_cons, ← hcons]
      exact ih hsub

lemma joinSpace_noDouble (ts : List (List Char))
    (h : ∀ t ∈ ts, t ≠ [] ∧ ∀ c ∈ t, isDelim c = false) :
    noDoubleDelim (joinSpace ts) = true := by
  induction ts with
  | nil => rfl
  | cons t ts' ih =>
    obtain ⟨hne, hfree⟩ := h t (List.mem_cons_self _ _)
    cases ts' with
    | nil =>
      rw [joinSpace_single]
      have hd := noDoubleDelim_append_delimFree t hfree [] rfl
      rwa [List.append_nil] at hd
    | cons t2 ts'' =>
      have hsub : ∀ x ∈ t2 :: ts'', x ≠ [] ∧ ∀ c ∈ x, isDelim c = false :=
        fun x hx => h x (List.mem_cons_of_mem _ hx)
      rw [joinSpace_cons_cons]
      apply noDoubleDelim_append_delimFree t hfree
      have hlead := joinSpace_noLead (t2 :: ts'') hsub
      have hdj := ih hsub
      cases hcons : joinSpace (t2 :: ts'') with
      | nil => rfl
      | cons y ys =>
        rw [hcons] at hlead hdj
        rw [noDoubleDelim_cons_cons]
        have hy : isDelim y = false := by
          simpa [noLeadDelim] using hlead
        simp [hy, hdj]

/-! ### Shape lemmas for the buffers the two builders return -/

lemma cString_shape (pre : List Char) :
    nulChar ∉ pre → ∀ rest : List (Option Char),
    cString (pre.map some ++ some nulChar :: rest) = pre := by
  induction pre with
  | nil =>
    intro _ rest
    simp [cString]
  | cons c cs ih =>
    intro hp rest
    have hc : ¬ c = nulChar := fun hcontra =>
      hp (hcontra ▸ List.mem_cons_self _ _)
    simp only [List.map_cons, List.cons_append, cString, List.append_eq]
    rw [if_neg hc, ih (fun hx => hp (List.mem_cons_of_mem _ hx)) rest]

lemma argsOf_shape (toks : List (List Char)) :
    ∀ rest : List (Option (Option (List Char))),
    argsOf (toks.map (fun t => some (some t)) ++ some none :: rest) = toks := by
  induction toks with
  | nil => intro rest; rfl
  | cons t ts ih =>
    intro rest
    simp only [List.map_cons, List.cons_append, argsOf, List.append_eq]
    rw [ih rest]

lemma getElem_len_append {α : Type} (A : List α) (b : α) (R : List α) :
    (A ++ b :: R)[A.length]? = some b := by
  induction A with
  | nil => simp
  | cons a l ih => simpa using ih

lemma inc_mul_growths_le (inc n : Nat) :
    inc * growthsNeeded inc 0 n inc ≤ n := by
  unfold growthsNeeded
  by_cases h : 0 + n < inc
  · rw [if_pos h]
    simp
  · rw [if_neg h]
    have h2 : 0 + n - inc = n - inc := by omega
    rw [h2, Nat.mul_add, Nat.mul_one]
    have h3 := Nat.div_mul_le_self (n - inc) inc
    have h4 : inc * ((n - inc) / inc) ≤ n - inc := by
      rw [Nat.mul_comm]
      exact h3
    omega

lemma grownEvents_mem (L inc k : Nat) :
    ∀ e ∈ grownEvents L inc k, e.1 = e.2.1 ∧ e.2.2 = e.2.1 + inc := by
  intro e he
  unfold grownEvents at he
  simp only [List.mem_map, List.mem_range] at he
  obtain ⟨i, _, rfl⟩ := he
  exact ⟨rfl, rfl⟩

/-! ### The wait loop and the loop iteration -/

lemma waitLoop_some :
    ∀ (ss : List WStatus) (s : WStatus), waitLoop ss = some s →
      s.terminal = true ∧
      ∃ pre post, ss = pre ++ s :: post ∧ ∀ x ∈ pre, x.terminal = false := by
  intro ss
  induction ss with
  | nil =>
    intro s h
    simp [waitLoop] at h
  | cons a rest ih =>
    intro s h
    simp only [waitLoop] at h
    by_cases ha : a.terminal = true
    · rw [if_neg (by simp [ha])] at h
      cases h
      exact ⟨ha, [], rest, rfl, by simp⟩
    · rw [if_pos (by simp [Bool.not_eq_true] at ha ⊢; exact ha)] at h
      obtain ⟨hterm, pre, post, hsplit, hpre⟩ := ih s h
      refine ⟨hterm, a :: pre, post, by rw [hsplit, List.cons_append], ?_⟩
      intro x hx
      rcases List.mem_cons.mp hx with rfl | hx
      · simpa [Bool.not_eq_true] using ha
      · exact hpre x hx

lemma waitLoop_none :
    ∀ ss : List WStatus, (∀ x ∈ ss, x.terminal = false) → waitLoop ss = none := by
  intro ss
  induction ss with
  | nil => intro _; rfl
  | cons a rest ih =>
    intro h
    simp only [waitLoop]
    rw [if_pos (by simp [h a (List.mem_cons_self _ _)])]
    exact ih fun x hx => h x (List.mem_cons_of_mem _ hx)

lemma seqResult_ok {α β : Type} (v : α) (f : α → CResult β) :
    seqResult (.ok v) f = f v := rfl

/-- Successful loop iteration: with all allocations succeeding and no
`NUL` byte typed before the newline, the iteration dispatches exactly
the `strtok` tokens of the typed line. -/
lemma dsh_loop_iter_spec (dirExists : List Char → Bool) (forkOk : Bool)
    (statuses : List WStatus) (st : ShellState) (input : List Char)
    (hnul : nulChar ∉ input.takeWhile keepChar) :
    dsh_loop_iter dirExists forkOk statuses (fun _ => true) (fun _ => true) st input =
      .ok (dsh_execute dirExists forkOk statuses st
        (strtokAll (input.takeWhile keepChar))) := by
  obtain ⟨rest1, hread, _⟩ :=
    (dsh_read_line_spec (fun _ => true) input rfl).1 (fun _ _ => rfl)
  unfold dsh_loop_iter
  rw [hread, seqResult_ok]
  simp only
  rw [cString_shape _ hnul rest1]
  obtain ⟨rest2, hsplit, _⟩ :=
    (dsh_split_line_spec (fun _ => true) (input.takeWhile keepChar) rfl).1
      (fun _ _ => rfl)
  rw [hsplit, seqResult_ok]
  simp only
  rw [argsOf_shape]

/-! ### The claims -/

/-- Claim C1: for every input stream, `dsh_read_line` returns exactly
the characters preceding the first newline or end-of-stream, in order,
excluding the terminator itself, for inputs of any length — including
lengths past any multiple of the initial 1024-unit capacity — with no
truncation or corruption; on end-of-stream with zero characters
accumulated (`input = []`) the same equation yields a valid empty line
(`takeWhile keepChar [] = []`, terminator at position 0). -/
theorem C1_read_line_lossless (input : List Char) :
    ∃ (rest' : List (Option Char)) (log : List GrowEvent),
      dsh_read_line (fun _ => true) input =
        .ok ((input.takeWhile keepChar).map some ++ some nulChar :: rest',
             (input.takeWhile keepChar).length, log) := by
  obtain ⟨rest', h, _⟩ :=
    (dsh_read_line_spec (fun _ => true) input rfl).1 (fun _ _ => rfl)
  exact ⟨rest', _, h⟩

/-- Claim C2: `dsh_split_line` returns exactly the maximal runs of
non-delimiter characters (delimiters: space, tab, CR, LF, bell), in
left-to-right order, with no empty tokens from consecutive delimiters,
terminated by an explicit `NULL` end marker at the position after the
last token (not a length field); a line that is empty or all
delimiters yields zero real tokens. -/
theorem C2_split_line_tokens (line : List Char) :
    ∃ (rest' : List (Option (Option (List Char)))) (log : List GrowEvent),
      dsh_split_line (fun _ => true) line =
        .ok ((specTokens line).map (fun t => some (some t)) ++ some none :: rest',
             (specTokens line).length, log) ∧
      ((specTokens line).map (fun t => some (some t)) ++
          some none :: rest')[(specTokens line).length]? = some (some none) ∧
      (∀ t ∈ specTokens line, t ≠ [] ∧ ∀ c ∈ t, isDelim c = false) ∧
      ((∀ c ∈ line, isDelim c = true) → specTokens line = []) := by
  obtain ⟨rest', h, _⟩ :=
    (dsh_split_line_spec (fun _ => true) line rfl).1 (fun _ _ => rfl)
  rw [strtokAll_eq_specTokens] at h
  refine ⟨rest', _, h, ?_, ?_, ?_⟩
  · have hg := getElem_len_append
      ((specTokens line).map fun t => some (some t)) (some none) rest'
    rwa [List.length_map] at hg
  · intro t ht
    rw [← strtokAll_eq_specTokens] at ht
    exact strtokAll_sound line t ht
  · intro hall
    rw [← strtokAll_eq_specTokens]
    exact strtokAll_all_delim line hall

/-- Claim C2, exercised: splitting a line whose tokens are separated by
runs of delimiters, and an all-delimiter line. -/
theorem C2_split_line_tokens_witness :
    specTokens (String.toList "  ls \t -l  ") =
      [String.toList "ls", String.toList "-l"] ∧
    specTokens (String.toList "   ") = [] := by
  have h1 := C2_split_line_tokens (String.toList "  ls \t -l  ")
  have h2 := C2_split_line_tokens (String.toList "   ")
  obtain ⟨_, _, _, _, _, _⟩ := h1
  obtain ⟨_, _, _, _, _, hdelim⟩ := h2
  refine ⟨by decide, hdelim (by decide)⟩

/-- Claim C3: the line buffer starts at capacity 1024
(`DSH_RL_BUFSIZE`) and the token array at 64 (`DSH_TOK_BUFSIZE`); each
buffer reallocates by its own fixed increment exactly when the write
position reaches the current capacity (every logged growth event fires
at position = old capacity with new = old + increment, the final
capacity is the initial one plus increment times the growth count and
never exceeds the final position by more than one increment), and all
previously written elements are preserved (the buffer below the write
position is exactly the data written). -/
theorem C3_buffer_growth (input line : List Char) :
    DSH_RL_BUFSIZE = 1024 ∧ DSH_TOK_BUFSIZE = 64 ∧
    (∃ buf pos log, dsh_read_line (fun _ => true) input = .ok (buf, pos, log) ∧
      (∀ e ∈ log, e.1 = e.2.1 ∧ e.2.2 = e.2.1 + DSH_RL_BUFSIZE) ∧
      buf.length = DSH_RL_BUFSIZE + DSH_RL_BUFSIZE * rlGrowths input ∧
      pos < buf.length ∧ buf.length ≤ pos + DSH_RL_BUFSIZE ∧
      buf.take pos = (input.takeWhile keepChar).map some) ∧
    (∃ arr pos log, dsh_split_line (fun _ => true) line = .ok (arr, pos, log) ∧
      (∀ e ∈ log, e.1 = e.2.1 ∧ e.2.2 = e.2.1 + DSH_TOK_BUFSIZE) ∧
      arr.length = DSH_TOK_BUFSIZE + DSH_TOK_BUFSIZE * slGrowths line ∧
      pos < arr.length ∧ arr.length ≤ pos + DSH_TOK_BUFSIZE ∧
      arr.take pos = (strtokAll line).map fun t => some (some t)) := by
  refine ⟨rfl, rfl, ?_, ?_⟩
  · obtain ⟨rest', h, hlen⟩ :=
      (dsh_read_line_spec (fun _ => true) input rfl).1 (fun _ _ => rfl)
    refine ⟨_, _, _, h, grownEvents_mem _ _ _, ?_, ?_, ?_, ?_⟩
    · simp only [List.length_append, List.length_map, List.length_cons]
      omega
    · simp only [List.length_append, List.length_map, List.length_cons]
      omega
    · have hb := inc_mul_growths_le DSH_RL_BUFSIZE
        (input.takeWhile keepChar).length
      unfold rlGrowths at hlen
      simp only [List.length_append, List.length_map, List.length_cons]
      omega
    · have ht := List.take_left ((input.takeWhile keepChar).map some)
        (some nulChar :: rest')
      rw [List.length_map] at ht
      exact ht
  · obtain ⟨rest', h, hlen⟩ :=
      (dsh_split_line_spec (fun _ => true) line rfl).1 (fun _ _ => rfl)
    refine ⟨_, _, _, h, grownEvents_mem _ _ _, ?_, ?_, ?_, ?_⟩
    · simp only [List.length_append, List.length_map, List.length_cons]
      omega
    · simp only [List.length_append, List.length_map, List.length_cons]
      omega
    · have hb := inc_mul_growths_le DSH_TOK_BUFSIZE (strtokAll line).length
      unfold slGrowths at hlen
      simp only [List.length_append, List.length_map, List.length_cons]
      omega
    · have ht := List.take_left ((strtokAll line).map fun t => some (some t))
        (some none :: rest')
      rw [List.length_map] at ht
      exact ht

/-- Claim C4 (dispatcher modelled from the spec, its source not being
under `src/`): a token sequence with zero real entries — the first
element is the end marker — makes `dsh_execute` return continue
immediately with the shell state unchanged, and the main loop
condition then re-prompts; a full loop iteration on an all-delimiter
line produces exactly that no-op continue. -/
theorem C4_empty_dispatch_noop (dirExists : List Char → Bool) (forkOk : Bool)
    (statuses : List WStatus) (st : ShellState)
    (arr : List (Option (Option (List Char))))
    (harr : arr.head? = some (some none))
    (input : List Char) (hdelim : ∀ c ∈ input, isDelim c = true) :
    argsOf arr = [] ∧
    dsh_execute dirExists forkOk statuses st (argsOf arr) = some (st, 1) ∧
    dsh_loop_continues 1 = true ∧
    dsh_loop_iter dirExists forkOk statuses (fun _ => true) (fun _ => true)
      st input = .ok (some (st, 1)) := by
  have hargs : argsOf arr = [] := by
    cases arr with
    | nil => simp at harr
    | cons a rest =>
      simp only [List.head?] at harr
      cases harr
      rfl
  have hsub : ∀ c ∈ input.takeWhile keepChar, isDelim c = true := fun c hc =>
    hdelim c ((List.takeWhile_sublist keepChar).subset hc)
  have hnul : nulChar ∉ input.takeWhile keepChar := by
    intro hmem
    have h := hsub nulChar hmem
    simp [isDelim, DSH_TOK_DELIM, nulChar] at h
  have hiter := dsh_loop_iter_spec dirExists forkOk statuses st input hnul
  rw [strtokAll_all_delim _ hsub] at hiter
  exact ⟨hargs, by rw [hargs]; rfl, rfl, hiter⟩

/-- Claim C4, exercised at a concrete end-marker-first array and the
all-delimiter line `"   \t "`. -/
theorem C4_empty_dispatch_noop_witness :
    argsOf [some none] = [] ∧
    dsh_execute (fun _ => true) true [] ⟨[]⟩ (argsOf [some none]) =
      some (⟨[]⟩, 1) ∧
    dsh_loop_continues 1 = true ∧
    dsh_loop_iter (fun _ => true) true [] (fun _ => true) (fun _ => true)
      ⟨[]⟩ (String.toList "   \t ") = .ok (some (⟨[]⟩, 1)) :=
  C4_empty_dispatch_noop (fun _ => true) true [] ⟨[]⟩ [some none] rfl
    (String.toList "   \t ") (by decide)

/-- Claim C5 (dispatcher modelled from the spec, its source not being
under `src/`): token 0 is compared against the fixed built-in table
`cd`, `help`, `exit` by exact case-sensitive equality in that fixed
order with first match winning; `exit` returns the stop signal with no
side effect regardless of trailing arguments, the earlier entries
return continue, and the differently-cased `EXIT` is not matched (it
can never produce the stop signal). -/
theorem C5_exit_dispatch (dirExists : List Char → Bool) (forkOk : Bool)
    (statuses : List WStatus) (st : ShellState) (rest : List (List Char)) :
    dsh_execute dirExists forkOk statuses st (String.toList "exit" :: rest) =
      some (st, 0) ∧
    dsh_execute dirExists forkOk statuses st (String.toList "cd" :: []) =
      some (st, 1) ∧
    dsh_execute dirExists forkOk statuses st (String.toList "help" :: rest) =
      some (st, 1) ∧
    dsh_execute dirExists forkOk statuses st (String.toList "EXIT" :: rest) ≠
      some (st, 0) := by
  refine ⟨?_, ?_, ?_, ?_⟩
  · simp [dsh_execute, dsh_exit]
  · simp [dsh_execute, dsh_cd]
  · simp [dsh_execute, dsh_help]
  · simp only [dsh_execute, if_true, if_false]
    unfold dsh_launch
    cases forkOk with
    | false =>
      rw [if_neg (by simp)]
      simp
    | true =>
      rw [if_pos rfl]
      cases waitLoop statuses with
      | none => simp
      | some s => simp

/-- Claim C5, exercised: `exit now` stops, `EXIT now` does not. -/
theorem C5_exit_dispatch_witness :
    dsh_execute (fun _ => true) true [] ⟨[]⟩
      (String.toList "exit" :: [String.toList "now"]) = some (⟨[]⟩, 0) ∧
    dsh_execute (fun _ => true) true [] ⟨[]⟩
      (String.toList "EXIT" :: [String.toList "now"]) ≠ some (⟨[]⟩, 0) :=
  ⟨(C5_exit_dispatch (fun _ => true) true [] ⟨[]⟩ [String.toList "now"]).1,
   (C5_exit_dispatch (fun _ => true) true [] ⟨[]⟩ [String.toList "now"]).2.2.2⟩

/-- Claim C6: whenever `dsh_launch` returns, it returns the continue
signal 1 — after the child ran to a terminal state (which covers a
child whose `execvp` failed: that child prints a diagnostic and exits
with failure, never re-entering shell logic), and also when process
creation itself failed, in which case the parent emits the diagnostic
and proceeds with no child; so a failed or failing external command
never terminates the shell. -/
theorem C6_launch_always_continue (forkOk : Bool) (statuses : List WStatus)
    (args : List (List Char)) (r : Nat × LaunchOutcome)
    (h : dsh_launch forkOk statuses args = some r) :
    r.1 = 1 ∧
    (∀ args2 : List (List Char),
      dsh_launch false statuses args2 = some (1, .forkFailed "dsh")) ∧
    dsh_child false args = .execFailedExit "dsh" EXIT_FAILURE := by
  refine ⟨?_, fun args2 => ?_, rfl⟩
  · unfold dsh_launch at h
    cases forkOk with
    | false =>
      rw [if_neg (by simp)] at h
      cases h
      rfl
    | true =>
      rw [if_pos rfl] at h
      cases hw : waitLoop statuses with
      | none => rw [hw] at h; cases h
      | some s => rw [hw] at h; cases h; rfl
  · unfold dsh_launch
    rw [if_neg (by simp)]

/-- Claim C6, exercised: a child that exits with failure status (the
exec-failed child) still yields the continue signal, and a failed fork
yields the continue signal with the parent diagnostic. -/
theorem C6_launch_always_continue_witness :
    (1 : Nat) = 1 ∧
    (∀ args2 : List (List Char),
      dsh_launch false [] args2 = some (1, .forkFailed "dsh")) ∧
    dsh_child false [String.toList "nosuchcmd"] =
      .execFailedExit "dsh" EXIT_FAILURE := by
  have h := C6_launch_always_continue true [WStatus.exited 1]
    [String.toList "nosuchcmd"] (1, .ran (WStatus.exited 1)) (by rfl)
  exact ⟨h.1, h.2.1, h.2.2⟩

/-- Claim C7: when an allocation or reallocation of the line buffer or
the token array fails, the process prints `dsh: allocation error` to
stderr and exits with `EXIT_FAILURE` immediately; there is no other
failure outcome and no half-result path — every run either fully
succeeds or ends in exactly that fatal exit, and any run whose needed
allocations do not all succeed is fatal. -/
theorem C7_alloc_failure_fatal (allocOk : Nat → Bool) (input line : List Char) :
    ((¬ (allocOk 0 = true ∧ ∀ i < rlGrowths input, allocOk (1 + i) = true)) →
      dsh_read_line allocOk input = .fatal "dsh: allocation error" EXIT_FAILURE) ∧
    ((∃ v, dsh_read_line allocOk input = .ok v) ∨
      dsh_read_line allocOk input = .fatal "dsh: allocation error" EXIT_FAILURE) ∧
    ((¬ (allocOk 0 = true ∧ ∀ i < slGrowths line, allocOk (1 + i) = true)) →
      dsh_split_line allocOk line = .fatal "dsh: allocation error" EXIT_FAILURE) ∧
    ((∃ v, dsh_split_line allocOk line = .ok v) ∨
      dsh_split_line allocOk line = .fatal "dsh: allocation error" EXIT_FAILURE) := by
  by_cases h0 : allocOk 0 = true
  · have hr := dsh_read_line_spec allocOk input h0
    have hs := dsh_split_line_spec allocOk line h0
    by_cases hallr : ∀ i < rlGrowths input, allocOk (1 + i) = true
    · by_cases halls : ∀ i < slGrowths line, allocOk (1 + i) = true
      · obtain ⟨r1, hok1, _⟩ := hr.1 hallr
        obtain ⟨r2, hok2, _⟩ := hs.1 halls
        exact ⟨fun hc => absurd ⟨h0, hallr⟩ hc, Or.inl ⟨_, hok1⟩,
          fun hc => absurd ⟨h0, halls⟩ hc, Or.inl ⟨_, hok2⟩⟩
      · obtain ⟨r1, hok1, _⟩ := hr.1 hallr
        exact ⟨fun hc => absurd ⟨h0, hallr⟩ hc, Or.inl ⟨_, hok1⟩,
          fun _ => hs.2 halls, Or.inr (hs.2 halls)⟩
    · by_cases halls : ∀ i < slGrowths line, allocOk (1 + i) = true
      · obtain ⟨r2, hok2, _⟩ := hs.1 halls
        exact ⟨fun _ => hr.2 hallr, Or.inr (hr.2 hallr),
          fun hc => absurd ⟨h0, halls⟩ hc, Or.inl ⟨_, hok2⟩⟩
      · exact ⟨fun _ => hr.2 hallr, Or.inr (hr.2 hallr),
          fun _ => hs.2 halls, Or.inr (hs.2 halls)⟩
  · have hr : dsh_read_line allocOk input =
        .fatal "dsh: allocation error" EXIT_FAILURE := by
      unfold dsh_read_line
      rw [if_neg h0]
    have hs : dsh_split_line allocOk line =
        .fatal "dsh: allocation error" EXIT_FAILURE := by
      unfold dsh_split_line
      rw [if_neg h0]
    exact ⟨fun _ => hr, Or.inr hr, fun _ => hs, Or.inr hs⟩

/-- Claim C7, exercised: with the very first allocation failing, both
builders exit with exactly the allocation diagnostic. -/
theorem C7_alloc_failure_fatal_witness :
    dsh_read_line (fun _ => false) (String.toList "hi") =
      .fatal "dsh: allocation error" EXIT_FAILURE ∧
    dsh_split_line (fun _ => false) (String.toList "hi") =
      .fatal "dsh: allocation error" EXIT_FAILURE :=
  ⟨(C7_alloc_failure_fatal (fun _ => false) (String.toList "hi")
      (String.toList "hi")).1 (by simp),
   (C7_alloc_failure_fatal (fun _ => false) (String.toList "hi")
      (String.toList "hi")).2.2.1 (by simp)⟩

/-- Claim C8: after a successful fork, the parent wait loop returns
control only at the first status reporting a terminal state (normal
exit or signal): any earlier reported statuses were non-terminal
(stopped), and if only stopped statuses are ever reported the parent
never returns control. -/
theorem C8_wait_until_terminal (statuses : List WStatus)
    (args : List (List Char)) :
    (∀ s : WStatus, dsh_launch true statuses args = some (1, .ran s) →
      s.terminal = true ∧
      ∃ pre post, statuses = pre ++ s :: post ∧
        ∀ x ∈ pre, x.terminal = false) ∧
    ((∀ x ∈ statuses, x.terminal = false) →
      dsh_launch true statuses args = none) := by
  constructor
  · intro s h
    unfold dsh_launch at h
    rw [if_pos rfl] at h
    cases hw : waitLoop statuses with
    | none => rw [hw] at h; cases h
    | some w =>
      rw [hw] at h
      have hws : w = s := by
        cases h
        rfl
      subst hws
      exact waitLoop_some statuses w hw
  · intro h
    unfold dsh_launch
    rw [if_pos rfl, waitLoop_none statuses h]

/-- Claim C8, exercised: a stopped status is waited through to the
following exit status, and a stopped-only stream never returns. -/
theorem C8_wait_until_terminal_witness :
    ((WStatus.exited 0).terminal = true ∧
      ∃ pre post, [WStatus.stopped 19, WStatus.exited 0] =
        pre ++ WStatus.exited 0 :: post ∧ ∀ x ∈ pre, x.terminal = false) ∧
    dsh_launch true [WStatus.stopped 19] [] = none :=
  ⟨(C8_wait_until_terminal [WStatus.stopped 19, WStatus.exited 0] []).1
      (WStatus.exited 0) rfl,
   (C8_wait_until_terminal [WStatus.stopped 19] []).2 (by decide)⟩

/-- Claim C9: joining the tokens `dsh_split_line` returns with single
spaces yields a line with no leading, no trailing, and no doubled
delimiter, and splitting that joined line again returns the same token
sequence — split after join after split equals split. -/
theorem C9_split_join_idempotent (line : List Char) :
    ∃ (rest1 rest2 : List (Option (Option (List Char))))
      (log1 log2 : List GrowEvent),
      dsh_split_line (fun _ => true) line =
        .ok ((strtokAll line).map (fun t => some (some t)) ++ some none :: rest1,
             (strtokAll line).length, log1) ∧
      argsOf ((strtokAll line).map (fun t => some (some t)) ++
        some none :: rest1) = strtokAll line ∧
      noLeadDelim (joinSpace (strtokAll line)) = true ∧
      noTrailDelim (joinSpace (strtokAll line)) = true ∧
      noDoubleDelim (joinSpace (strtokAll line)) = true ∧
      dsh_split_line (fun _ => true) (joinSpace (strtokAll line)) =
        .ok ((strtokAll line).map (fun t => some (some t)) ++ some none :: rest2,
             (strtokAll line).length, log2) ∧
      strtokAll (joinSpace (strtokAll line)) = strtokAll line := by
  have hsound := strtokAll_sound line
  obtain ⟨rest1, h1, _⟩ :=
    (dsh_split_line_spec (fun _ => true) line rfl).1 (fun _ _ => rfl)
  obtain ⟨rest2, h2, _⟩ :=
    (dsh_split_line_spec (fun _ => true) (joinSpace (strtokAll line)) rfl).1
      (fun _ _ => rfl)
  have hjoin : strtokAll (joinSpace (strtokAll line)) = strtokAll line :=
    strtokAll_joinSpace (strtokAll line) hsound
  rw [hjoin] at h2
  exact ⟨rest1, rest2, _, _, h1, argsOf_shape _ rest1,
    joinSpace_noLead _ hsound, joinSpace_noTrail _ hsound,
    joinSpace_noDouble _ hsound, h2, hjoin⟩

/-- Claim C10: with every allocation succeeding, no store `dsh_read_line`
or `dsh_split_line` performs — the data writes and both final
terminator writes included — is out of bounds: the bounds-checked
embedding never reaches the `oob` outcome, on any input. -/
theorem C10_no_oob_store (input line : List Char) :
    dsh_read_line (fun _ => true) input ≠ CResult.oob ∧
    dsh_split_line (fun _ => true) line ≠ CResult.oob := by
  obtain ⟨r1, h1, _⟩ :=
    (dsh_read_line_spec (fun _ => true) input rfl).1 (fun _ _ => rfl)
  obtain ⟨r2, h2, _⟩ :=
    (dsh_split_line_spec (fun _ => true) line rfl).1 (fun _ _ => rfl)
  rw [h1, h2]
  exact ⟨fun h => CResult.noConfusion h, fun h => CResult.noConfusion h⟩

end Dsh
